import Mathlib

/-!
Verification of the stock-dashboard signal-composition core.

The Python backend (services/indicators.py, services/advanced_indicators.py,
services/data_provider.py, services/session_analyzer.py) is shallowly embedded
below.  Real arithmetic is idealised over the rationals.  The builtin round
function of the host language rounds half to even; pyRoundE models it exactly
over the rationals.  Fallible operations (list indexing that can go out of
range, division that can fail) are embedded with Option, where a none result
marks the run-time error the source would raise at that point.
-/

/-- Rounding of a rational to the nearest integer, ties to the even integer.
This is the exact semantics of the source language's builtin round under the
rational idealisation of its arithmetic. -/
def pyRoundE (q : ℚ) : ℤ :=
  if q - (Rat.floor q : ℚ) < 1/2 then Rat.floor q
  else if (1/2 : ℚ) < q - (Rat.floor q : ℚ) then Rat.floor q + 1
  else if Rat.floor q % 2 = 0 then Rat.floor q else Rat.floor q + 1

/-- Rounding to two decimal places, as round(x, 2) in the source. -/
def pyRound2 (q : ℚ) : ℚ := (pyRoundE (q * 100) : ℚ) / 100

lemma ratFloor_eq_floor (q : ℚ) : Rat.floor q = ⌊q⌋ := by
  rw [Rat.floor_def', Rat.floor_def]

lemma pyRoundE_le (q : ℚ) : (pyRoundE q : ℚ) ≤ q + 1/2 := by
  have h1 := Int.floor_le q
  have h2 := Int.lt_floor_add_one q
  unfold pyRoundE
  rw [ratFloor_eq_floor]
  split_ifs with ha hb hc <;> push_cast <;> linarith

lemma le_pyRoundE (q : ℚ) : q - 1/2 ≤ (pyRoundE q : ℚ) := by
  have h1 := Int.floor_le q
  have h2 := Int.lt_floor_add_one q
  unfold pyRoundE
  rw [ratFloor_eq_floor]
  split_ifs with ha hb hc <;> push_cast <;> linarith

lemma pyRoundE_le_of_le {q : ℚ} {n : ℤ} (h : q ≤ (n : ℚ)) : pyRoundE q ≤ n := by
  have h1 := pyRoundE_le q
  have h2 : (pyRoundE q : ℚ) < ((n + 1 : ℤ) : ℚ) := by push_cast; linarith
  exact Int.lt_add_one_iff.mp (by exact_mod_cast h2)

lemma le_pyRoundE_of_le {q : ℚ} {n : ℤ} (h : (n : ℚ) ≤ q) : n ≤ pyRoundE q := by
  have h1 := le_pyRoundE q
  have h2 : ((n - 1 : ℤ) : ℚ) < (pyRoundE q : ℚ) := by push_cast; linarith
  have h3 : n - 1 < pyRoundE q := by exact_mod_cast h2
  omega

lemma pyRound2_nonneg {q : ℚ} (h : 0 ≤ q) : 0 ≤ pyRound2 q := by
  have h0 : (0 : ℤ) ≤ pyRoundE (q * 100) :=
    le_pyRoundE_of_le (by push_cast; linarith)
  have h1 : (0 : ℚ) ≤ (pyRoundE (q * 100) : ℚ) := by exact_mod_cast h0
  unfold pyRound2
  linarith

lemma pyRound2_le_one {q : ℚ} (h : q ≤ 1) : pyRound2 q ≤ 1 := by
  have h0 : pyRoundE (q * 100) ≤ (100 : ℤ) :=
    pyRoundE_le_of_le (by push_cast; linarith)
  have h1 : (pyRoundE (q * 100) : ℚ) ≤ 100 := by exact_mod_cast h0
  unfold pyRound2
  linarith

lemma pyRound2_le_hundred {q : ℚ} (h : q ≤ 100) : pyRound2 q ≤ 100 := by
  have h0 : pyRoundE (q * 100) ≤ (10000 : ℤ) :=
    pyRoundE_le_of_le (by push_cast; linarith)
  have h1 : (pyRoundE (q * 100) : ℚ) ≤ 10000 := by exact_mod_cast h0
  unfold pyRound2
  linarith

/-- Lookup in an association list with a default, as dict.get(key, default). -/
def dictGet : List (String × ℚ) → String → ℚ → ℚ
  | [], _, dflt => dflt
  | (k, v) :: rest, key, dflt => if k = key then v else dictGet rest key dflt

/-- Minimum of a list of prices, as the builtin min on a nonempty sequence
(the embedding returns 0 on the empty list, which the source never reaches). -/
def listMin : List ℚ → ℚ
  | [] => 0
  | x :: xs => xs.foldl min x

/-- Maximum of a list of prices, as the builtin max on a nonempty sequence. -/
def listMax : List ℚ → ℚ
  | [] => 0
  | x :: xs => xs.foldl max x

lemma foldl_min_le_init (xs : List ℚ) : ∀ a : ℚ, xs.foldl min a ≤ a := by
  induction xs with
  | nil => intro a; simp
  | cons x xs ih =>
    intro a
    calc (x :: xs).foldl min a = xs.foldl min (min a x) := by simp [List.foldl]
    _ ≤ min a x := ih (min a x)
    _ ≤ a := min_le_left a x

lemma foldl_min_le_mem {xs : List ℚ} {b : ℚ} (hb : b ∈ xs) :
    ∀ a : ℚ, xs.foldl min a ≤ b := by
  induction xs with
  | nil => cases hb
  | cons x xs ih =>
    intro a
    rcases List.mem_cons.mp hb with h | h
    · subst h
      calc (b :: xs).foldl min a = xs.foldl min (min a b) := by simp [List.foldl]
      _ ≤ min a b := foldl_min_le_init xs (min a b)
      _ ≤ b := min_le_right a b
    · simpa [List.foldl] using ih h (min a x)

lemma listMin_le_mem {l : List ℚ} {b : ℚ} (hb : b ∈ l) : listMin l ≤ b := by
  cases l with
  | nil => cases hb
  | cons x xs =>
    rcases List.mem_cons.mp hb with h | h
    · subst h
      exact foldl_min_le_init xs b
    · exact foldl_min_le_mem h x

lemma le_foldl_max_init (xs : List ℚ) : ∀ a : ℚ, a ≤ xs.foldl max a := by
  induction xs with
  | nil => intro a; simp
  | cons x xs ih =>
    intro a
    calc a ≤ max a x := le_max_left a x
    _ ≤ xs.foldl max (max a x) := ih (max a x)
    _ = (x :: xs).foldl max a := by simp [List.foldl]

lemma le_foldl_max_mem {xs : List ℚ} {b : ℚ} (hb : b ∈ xs) :
    ∀ a : ℚ, b ≤ xs.foldl max a := by
  induction xs with
  | nil => cases hb
  | cons x xs ih =>
    intro a
    rcases List.mem_cons.mp hb with h | h
    · subst h
      calc b ≤ max a b := le_max_right a b
      _ ≤ xs.foldl max (max a b) := le_foldl_max_init xs (max a b)
      _ = (b :: xs).foldl max a := by simp [List.foldl]
    · simpa [List.foldl] using ih h (max a x)

lemma le_listMax_mem {l : List ℚ} {b : ℚ} (hb : b ∈ l) : b ≤ listMax l := by
  cases l with
  | nil => cases hb
  | cons x xs =>
    rcases List.mem_cons.mp hb with h | h
    · subst h
      exact le_foldl_max_init xs b
    · exact le_foldl_max_mem h x

/-- Python l[-n:], the suffix of the most recent n entries. -/
def lastN (n : ℕ) (l : List ℚ) : List ℚ := l.drop (l.length - n)

lemma lastN_length_le (n : ℕ) (l : List ℚ) : (lastN n l).length ≤ n := by
  unfold lastN
  rw [List.length_drop]
  omega

lemma lastN_of_length_le {n : ℕ} {l : List ℚ} (h : l.length ≤ n) : lastN n l = l := by
  unfold lastN
  have : l.length - n = 0 := by omega
  rw [this, List.drop_zero]

lemma lastN_append_lastN (n : ℕ) (x y : List ℚ) :
    lastN n (lastN n x ++ y) = lastN n (x ++ y) := by
  by_cases h : x.length ≤ n
  · rw [lastN_of_length_le h]
  · have hk : x.length - n ≤ x.length := by omega
    unfold lastN
    have hlen : (List.drop (x.length - n) x ++ y).length - n = y.length := by
      rw [List.length_append, List.length_drop]
      omega
    rw [hlen, ← List.drop_append_of_le_length hk, List.drop_drop]
    congr 1
    rw [List.length_append]
    omega

/-! ## indicators.py -/

/-- Deltas prices[-i] - prices[-i-1] for i = 1..period, taken from services/indicators.py. -/
def deltas (P : List ℚ) (period : ℕ) : List ℚ :=
  (List.range period).map fun j => P.reverse.getD j 0 - P.reverse.getD (j + 1) 0

/-- Positive deltas collected into the gains list of rsi. -/
def gains (P : List ℚ) (period : ℕ) : List ℚ :=
  (deltas P period).filter fun d => decide (0 < d)

/-- Non-positive deltas, in absolute value, collected into the losses list of rsi. -/
def losses (P : List ℚ) (period : ℕ) : List ℚ :=
  ((deltas P period).filter fun d => decide (¬ 0 < d)).map fun d => |d|

/-- Average gain of rsi: sum(gains)/period if gains else 0. -/
def avg_gain (P : List ℚ) (period : ℕ) : ℚ :=
  if gains P period = [] then 0 else (gains P period).sum / (period : ℚ)

/-- Average loss of rsi: sum(losses)/period if losses else 0. -/
def avg_loss (P : List ℚ) (period : ℕ) : ℚ :=
  if losses P period = [] then 0 else (losses P period).sum / (period : ℚ)

/-- rsi from services/indicators.py; none is the absence marker returned on
insufficient history. -/
def rsi (P : List ℚ) (period : ℕ) : Option ℚ :=
  if P.length < period + 1 then none
  else if avg_loss P period = 0 then some 100
  else some (pyRound2 (100 - 100 / (1 + avg_gain P period / avg_loss P period)))

/-! ## advanced_indicators.py -/

/-- Division exactly as the source's slash: none marks the ZeroDivisionError
raised on a zero divisor.  Used for the epsilon-shifted denominators, which
the source does not guard and which vanish when the shifted value is exactly
-0.001. -/
def pyDiv (a b : ℚ) : Option ℚ := if b = 0 then none else some (a / b)

/-- vwap from services/advanced_indicators.py; none is returned on short
history and on zero total volume. -/
def vwap (P V : List ℚ) : Option ℚ :=
  if P.length < 2 ∨ V.length < 2 then none
  else
    let tp_volume := ((P.zip V).map fun pv => pv.1 * pv.2).sum
    let total_volume := V.sum
    if total_volume = 0 then none else some (pyRound2 (tp_volume / total_volume))

/-- Result record of order_flow. -/
structure OrderFlow where
  buy_pressure : ℚ
  sell_pressure : ℚ
  ratio : ℚ
deriving DecidableEq

/-- Neutral order-flow record returned on short history or zero volume. -/
def flow_default : OrderFlow := ⟨0.5, 0.5, 1⟩

/-- One iteration of the order_flow loop: volumes[i] is attributed to buy
volume, sell volume, or split, according to the price move at i.  The volume
lookup is fallible: the source indexes volumes[i] for every i < len(prices),
which raises when volumes is shorter than prices. -/
def of_step (P V : List ℚ) (acc : Option (ℚ × ℚ)) (i : ℕ) : Option (ℚ × ℚ) :=
  acc.bind fun bs =>
    (V[i]?).map fun v =>
      if P.getD (i - 1) 0 < P.getD i 0 then (bs.1 + v, bs.2)
      else if P.getD i 0 < P.getD (i - 1) 0 then (bs.1, bs.2 + v)
      else (bs.1 + v * 0.5, bs.2 + v * 0.5)

/-- Accumulated (buy_volume, sell_volume) of the order_flow loop over
i = 1 .. len(prices)-1. -/
def of_volumes (P V : List ℚ) : Option (ℚ × ℚ) :=
  (List.range' 1 (P.length - 1)).foldl (of_step P V) (some (0, 0))

/-- order_flow from services/advanced_indicators.py.  The pressures divide by
the total volume, kept nonzero by the zero-guard above them; the ratio
divides by sell_volume + 0.001 with no guard, so the result is none (the
source raises ZeroDivisionError) when the sell volume is exactly -0.001. -/
def order_flow (P V : List ℚ) : Option OrderFlow :=
  if P.length < 2 ∨ V.length < 2 then some flow_default
  else
    match of_volumes P V with
    | none => none
    | some bs =>
      if bs.1 + bs.2 = 0 then some flow_default
      else
        match pyDiv bs.1 (bs.2 + 0.001) with
        | none => none
        | some r =>
          some ⟨pyRound2 (bs.1 / (bs.1 + bs.2)), pyRound2 (bs.2 / (bs.1 + bs.2)), pyRound2 r⟩

/-- Result record of volume_profile. -/
structure VolumeProfile where
  poc : ℚ
  value_area : List ℚ
deriving DecidableEq

/-- Insertion-ordered accumulation of a volume into the bucket map, as a
dict update: an existing key keeps its position, a new key is appended. -/
def addToBins : List (ℚ × ℚ) → ℚ → ℚ → List (ℚ × ℚ)
  | [], key, vol => [(key, vol)]
  | (k, v) :: rest, key, vol =>
    if k = key then (k, v + vol) :: rest else (k, v) :: addToBins rest key vol

/-- Bucket key of a price in volume_profile:
round((p - min)/bin_size * 2)/2 + min. -/
def binKey (bins : ℕ) (P : List ℚ) (p : ℚ) : ℚ :=
  let mn := listMin P
  let bin_size := (listMax P - mn) / (bins : ℚ)
  (pyRoundE ((p - mn) / bin_size * 2) : ℚ) / 2 + mn

/-- The bucket map of volume_profile in insertion order. -/
def bin_volumes_of (bins : ℕ) (P V : List ℚ) : List (ℚ × ℚ) :=
  (P.zip V).foldl (fun acc pv => addToBins acc (binKey bins P pv.1) pv.2) []

/-- First key of maximal volume, as max(dict, key=dict.get) on the
insertion-ordered bucket map. -/
def poc_of : List (ℚ × ℚ) → ℚ
  | [] => 0
  | b :: rest => (rest.foldl (fun best x => if best.2 < x.2 then x else best) b).1

/-- Buckets sorted by descending volume; the sort is stable, so equal-volume
buckets keep insertion order, as the source's sorted(..., reverse=True). -/
def sorted_bins_of (bins : ℕ) (P V : List ℚ) : List (ℚ × ℚ) :=
  List.insertionSort (fun a b => b.2 ≤ a.2) (bin_volumes_of bins P V)

/-- Total bucket volume of volume_profile. -/
def total_vol_of (bins : ℕ) (P V : List ℚ) : ℚ :=
  ((bin_volumes_of bins P V).map Prod.snd).sum

/-- Value-area target: 70 percent of the total bucket volume. -/
def target_vol_of (bins : ℕ) (P V : List ℚ) : ℚ := total_vol_of bins P V * 0.7

/-- Value-area loop of volume_profile: append the rounded price level, add the
volume, stop as soon as the cumulative volume reaches the target. -/
def value_area_loop : List (ℚ × ℚ) → ℚ → ℚ → List ℚ
  | [], _, _ => []
  | b :: rest, cum, target =>
    if target ≤ cum + b.2 then [pyRound2 b.1]
    else pyRound2 b.1 :: value_area_loop rest (cum + b.2) target

/-- volume_profile from services/advanced_indicators.py (bins is the bin
count, 10 at every call site). -/
def volume_profile (bins : ℕ) (P V : List ℚ) : VolumeProfile :=
  if P.length < 2 ∨ V.length < 2 then ⟨P.getLastD 0, []⟩
  else if listMin P = listMax P then ⟨listMin P, [listMin P]⟩
  else
    ⟨pyRound2 (poc_of (bin_volumes_of bins P V)),
      List.insertionSort (fun a b => a ≤ b)
        (value_area_loop (sorted_bins_of bins P V) 0 (target_vol_of bins P V))⟩

/-- Result record of microstructure. -/
structure Micro where
  volatility : ℚ
  imbalance : ℚ
  efficiency : ℚ
deriving DecidableEq

/-- Guarded simple returns of microstructure:
(prices[i] - prices[i-1]) / prices[i-1] if prices[i-1] != 0 else 0. -/
def micro_returns (P : List ℚ) : List ℚ :=
  (List.range' 1 (P.length - 1)).map fun i =>
    if P.getD (i - 1) 0 ≠ 0 then (P.getD i 0 - P.getD (i - 1) 0) / P.getD (i - 1) 0
    else 0

/-- Half-even rounding of the square root of a nonnegative rational.  Used to
express round(variance ** 0.5 * 100, 2) exactly: that value is the half-even
integer rounding of sqrt(variance * 10^8), divided by 100. -/
def roundSqrtE (q : ℚ) : ℤ :=
  let k : ℤ := (Nat.sqrt (Rat.floor q).toNat : ℤ)
  if 4 * q < (((2 * k + 1) ^ 2 : ℤ) : ℚ) then k
  else if (((2 * k + 1) ^ 2 : ℤ) : ℚ) < 4 * q then k + 1
  else if k % 2 = 0 then k else k + 1

/-- Neutral microstructure record returned on short history. -/
def micro_default : Micro := ⟨0, 0.5, 0.5⟩

/-- microstructure from services/advanced_indicators.py.  The volatility
denominators are guarded by the nonemptiness test and the imbalance
denominator price_range + 0.001 cannot vanish (the range is never below
zero), but the efficiency denominator avg_volume + 0.001 is unguarded: the
result is none (the source raises ZeroDivisionError) when the recent average
volume is exactly -0.001. -/
def microstructure (P V : List ℚ) : Option Micro :=
  if P.length < 2 ∨ V.length < 2 then some micro_default
  else
    let returns := micro_returns P
    let volatility :=
      if returns = [] then 0
      else
        let mean := returns.sum / (returns.length : ℚ)
        let variance := (returns.map fun r => (r - mean) ^ 2).sum / (returns.length : ℚ)
        (roundSqrtE (variance * 100000000) : ℚ) / 100
    let recent_prices := P.drop (P.length - 20)
    let recent_volumes := V.drop (V.length - 20)
    let imbalance :=
      if recent_prices = [] then 0.5
      else
        let price_range := listMax recent_prices - listMin recent_prices
        pyRound2 ((recent_prices.getLastD 0 - listMin recent_prices) / (price_range + 0.001))
    let efficiency_opt :=
      if recent_volumes = [] then some (0.5 : ℚ)
      else
        let avg_volume := recent_volumes.sum / (recent_volumes.length : ℚ)
        let price_move := |recent_prices.getLastD 0 - recent_prices.headD 0|
        (pyDiv price_move (avg_volume + 0.001)).map fun q => pyRound2 (min q 1)
    match efficiency_opt with
    | none => none
    | some efficiency => some ⟨volatility, imbalance, efficiency⟩

/-- Gap of market_open_setup: rounded percent change from prices[0] to the
last price, zero when the open price is zero. -/
def gap_of (P : List ℚ) : ℚ :=
  if P.headD 0 ≠ 0 then pyRound2 ((P.getLastD 0 - P.headD 0) / P.headD 0 * 100) else 0

/-- Momentum of market_open_setup: percent change across the first five
observations (unrounded), zero when undefined. -/
def momentum_of (P : List ℚ) : ℚ :=
  let early := P.take 5
  if early = [] then 0
  else if early.headD 0 ≠ 0 then
    (early.getLastD 0 - early.headD 0) / early.headD 0 * 100
  else 0

/-- Volume strength of market_open_setup: last volume over the epsilon-shifted
average volume, rounded; none (the source raises ZeroDivisionError) when the
average volume is exactly -0.001. -/
def volume_strength_of (V : List ℚ) : Option ℚ :=
  (pyDiv (V.getLastD 0) (V.sum / (V.length : ℚ) + 0.001)).map pyRound2

/-- Fallback dict of market_open_setup on short history.  Note it carries the
key "strength" while the full result carries "setup_strength". -/
def setup_fallback : List (String × ℚ) := [("gap", 0), ("momentum", 0.5), ("strength", 0)]

/-- market_open_setup from services/advanced_indicators.py, as the dict the
source returns; none propagates the unguarded volume-strength division.  The
gap and momentum computations cannot raise (their divisions carry explicit
zero tests), so hoisting the fallible volume strength preserves the source's
evaluation order. -/
def market_open_setup (P V : List ℚ) : Option (List (String × ℚ)) :=
  if P.length < 5 ∨ V.length < 5 then some setup_fallback
  else
    match volume_strength_of V with
    | none => none
    | some vs =>
      let gap := gap_of P
      let momentum := momentum_of P
      let strength_score :=
        (if 1 < |gap| then (20 : ℚ) else 0) + (if 1 < |momentum| then 20 else 0) +
          (if (1.5 : ℚ) < vs then 20 else 0) + (if 0 < gap ∧ 0 < momentum then 40 else 0)
      some [("gap", gap), ("momentum", pyRound2 momentum), ("volume_strength", vs),
        ("setup_strength", min strength_score 100)]

/-- Sub-score of the opening setup in combined_signal:
setup.get("setup_strength", 0) / 100, applied to a computed setup dict. -/
def dict_setup_score (setup : List (String × ℚ)) : ℚ := dictGet setup "setup_strength" 0 / 100

/-- Opening-setup sub-score at history level; the getD default is never
reached when market_open_setup succeeds. -/
def setup_score_of (P V : List ℚ) : ℚ :=
  dict_setup_score ((market_open_setup P V).getD setup_fallback)

/-- above_vwap of combined_signal.  The source tests the vwap value for
truthiness, so an absent vwap and a vwap equal to zero both take the neutral
branch. -/
def above_vwap_of (P V : List ℚ) (cp : ℚ) : ℚ :=
  match vwap P V with
  | none => 0.5
  | some v => if v = 0 then 0.5 else if v < cp then 1 else 0

/-- Reported vwap_distance of combined_signal: rounded percent distance when
the vwap is truthy, else 0. -/
def vwap_distance_of (P V : List ℚ) (cp : ℚ) : ℚ :=
  match vwap P V with
  | none => 0
  | some v => if v = 0 then 0 else pyRound2 ((cp - v) / v * 100)

/-- vwap positioning sub-score: clamp(0.5 + (above_vwap - 0.5) * 2, 0, 1). -/
def vwap_score_of (P V : List ℚ) (cp : ℚ) : ℚ :=
  max 0 (min 1 (0.5 + (above_vwap_of P V cp - 0.5) * 2))

/-- Microstructure sub-score of combined_signal: micro.get("efficiency", 0.5);
the getD default is never reached when microstructure succeeds. -/
def micro_score_of (P V : List ℚ) : ℚ := ((microstructure P V).getD micro_default).efficiency

/-- Volume sub-score of combined_signal:
clamp(0.5 + micro.get("imbalance", 0.5), 0, 1). -/
def vol_score_of (P V : List ℚ) : ℚ :=
  max 0 (min 1 (0.5 + ((microstructure P V).getD micro_default).imbalance))

/-- Weighted combination of the five sub-scores with the fixed weights of
combined_signal: setup 0.2, flow 0.25, vwap 0.2, micro 0.15, volume 0.2,
applied to the computed component records. -/
def combined_of (P V : List ℚ) (cp : ℚ) (setup : List (String × ℚ)) (flow : OrderFlow)
    (micro : Micro) : ℚ :=
  dict_setup_score setup * 0.2 + flow.buy_pressure * 0.25 + vwap_score_of P V cp * 0.2 +
    micro.efficiency * 0.15 + max 0 (min 1 (0.5 + micro.imbalance)) * 0.2

/-- The internal combined score of combined_signal, before output rounding.
When the three component computations succeed this equals the let-bound
combined of the source; the getD defaults are never reached on that path. -/
def combined_raw (P V : List ℚ) (cp : ℚ) : ℚ :=
  combined_of P V cp ((market_open_setup P V).getD setup_fallback)
    ((order_flow P V).getD flow_default) ((microstructure P V).getD micro_default)

/-- Label and pre-rounding confidence chosen from the combined score by the
threshold chain of combined_signal. -/
def signal_label (c : ℚ) : String × ℚ :=
  if 0.75 < c then ("STRONG BUY", c)
  else if 0.60 < c then ("BUY", c)
  else if 0.40 < c then ("HOLD", 0.5)
  else if 0.25 < c then ("SELL", 1 - c)
  else ("STRONG SELL", 1 - c)

/-- Component map of the combined-signal response. -/
structure Components where
  market_open_setup : List (String × ℚ)
  order_flow : OrderFlow
  vwap_price : Option ℚ
  vwap_distance : ℚ
  microstructure : Micro
  volume_profile : VolumeProfile
deriving DecidableEq

/-- Combined-signal response record. -/
structure CombinedSignal where
  signal : String
  confidence : ℚ
  combined_score : ℚ
  components : Components
deriving DecidableEq

/-- Placeholder components of the short-history default of combined_signal;
the current price is echoed as the vwap price. -/
def default_components (cp : ℚ) : Components :=
  ⟨[("gap", 0), ("momentum", 0), ("setup_strength", 0)], ⟨0.5, 0.5, 1⟩, some cp, 0,
    ⟨0, 0.5, 0.5⟩, ⟨cp, [cp]⟩⟩

/-- combined_signal from services/advanced_indicators.py.  The result is none
exactly when one of its components raises: order_flow on mismatched history
lengths, or an unguarded epsilon denominator hitting zero in
market_open_setup, order_flow or microstructure.  The components are
evaluated in the source's order (setup, flow, vwap, micro, profile). -/
def combined_signal (P V : List ℚ) (cp : ℚ) : Option CombinedSignal :=
  if P = [] ∨ V = [] ∨ P.length < 2 ∨ V.length < 2 then
    some ⟨"HOLD", 0.5, 0.5, default_components cp⟩
  else
    match market_open_setup P V with
    | none => none
    | some setup =>
      match order_flow P V with
      | none => none
      | some flow =>
        match microstructure P V with
        | none => none
        | some micro =>
          let combined := combined_of P V cp setup flow micro
          let sc := signal_label combined
          some ⟨sc.1, pyRound2 sc.2, pyRound2 combined,
            ⟨setup, flow, vwap P V, vwap_distance_of P V cp, micro, volume_profile 10 P V⟩⟩

/-! ## data_provider.py -/

/-- Latest snapshot stored by update_market_snapshot.  The time of recording
is passed in explicitly; the source reads the wall clock. -/
structure Snapshot where
  symbol : String
  price : ℚ
  timestamp : ℤ
deriving DecidableEq

/-- The mutable module state of data_provider.py: market_cache and
price_history, both keyed by symbol, absent keys mapped to none. -/
structure Store where
  market_cache : String → Option Snapshot
  price_history : String → Option (List ℚ)

/-- Initial empty state of both dictionaries. -/
def empty_store : Store := ⟨fun _ => none, fun _ => none⟩

/-- MAX_HISTORY from data_provider.py. -/
def MAX_HISTORY : ℕ := 100

/-- update_market_snapshot from data_provider.py: append the price to the
symbol's history (setdefault to the empty list), truncate to the most recent
MAX_HISTORY entries, and replace the snapshot.  The generated price and the
wall-clock time are passed in explicitly. -/
def update_market_snapshot (st : Store) (symbol : String) (price : ℚ) (t : ℤ) : Store :=
  let hist := lastN MAX_HISTORY (((st.price_history symbol).getD []) ++ [price])
  ⟨fun s => if s = symbol then some ⟨symbol, price, t⟩ else st.market_cache s,
    fun s => if s = symbol then some hist else st.price_history s⟩

/-- get_cached_snapshot from data_provider.py:
(market_cache.get(symbol), price_history.get(symbol, [])). -/
def get_cached_snapshot (st : Store) (symbol : String) : Option Snapshot × List ℚ :=
  (st.market_cache symbol, (st.price_history symbol).getD [])

/-- A sequence of ticks applied in order; each entry carries the symbol, the
generated price and the recording time. -/
def run_ticks (st : Store) (calls : List (String × ℚ × ℤ)) : Store :=
  calls.foldl (fun s c => update_market_snapshot s c.1 c.2.1 c.2.2) st

/-- History list observed for a symbol. -/
def histOf (st : Store) (sym : String) : List ℚ := (st.price_history sym).getD []

/-- Prices of the ticks recorded for one symbol, in order. -/
def prices_for (sym : String) (calls : List (String × ℚ × ℤ)) : List ℚ :=
  (calls.filter fun c => decide (c.1 = sym)).map fun c => c.2.1

/-! ## session_analyzer.py -/

/-- Per-step simple returns computed inside get_session_metrics
(session_analyzer.py lines 289-292).  Unlike the returns of microstructure,
the division by prices[i-1] carries no zero guard in the source; the embedding
returns none exactly where the source raises ZeroDivisionError. -/
def session_returns (P : List ℚ) : Option (List ℚ) :=
  (List.range' 1 (P.length - 1)).mapM fun i =>
    if P.getD (i - 1) 0 = 0 then none
    else some ((P.getD i 0 - P.getD (i - 1) 0) / P.getD (i - 1) 0 * 100)

/-! ## Helper lemmas -/

lemma dictGet_full_setup (g m vs ss : ℚ) :
    dictGet [("gap", g), ("momentum", m), ("volume_strength", vs), ("setup_strength", ss)]
      "setup_strength" 0 = ss := by
  with_unfolding_all rfl

lemma dictGet_fallback_setup :
    dictGet [("gap", 0), ("momentum", 0.5), ("strength", 0)] "setup_strength" 0 = 0 := by
  with_unfolding_all rfl

lemma combined_guard_false {P V : List ℚ} (hP : 2 ≤ P.length) (hV : 2 ≤ V.length) :
    ¬(P = [] ∨ V = [] ∨ P.length < 2 ∨ V.length < 2) := by
  push_neg
  refine ⟨List.length_pos.mp (by omega), List.length_pos.mp (by omega), by omega, by omega⟩

lemma of_fold_spec (P V : List ℚ) :
    ∀ (is : List ℕ) (acc : ℚ × ℚ), (∀ i ∈ is, i < V.length) →
      ∃ bs, is.foldl (of_step P V) (some acc) = some bs ∧
        ((∀ v ∈ V, 0 ≤ v) → 0 ≤ acc.1 → 0 ≤ acc.2 → 0 ≤ bs.1 ∧ 0 ≤ bs.2) := by
  intro is
  induction is with
  | nil => exact fun acc _ => ⟨acc, rfl, fun _ h1 h2 => ⟨h1, h2⟩⟩
  | cons i rest ih =>
    intro acc h
    have hi : i < V.length := h i (List.mem_cons_self _ _)
    have hrest : ∀ j ∈ rest, j < V.length := fun j hj => h j (List.mem_cons_of_mem _ hj)
    have hstep : of_step P V (some acc) i = some
        (if P.getD (i - 1) 0 < P.getD i 0 then (acc.1 + V[i], acc.2)
         else if P.getD i 0 < P.getD (i - 1) 0 then (acc.1, acc.2 + V[i])
         else (acc.1 + V[i] * 0.5, acc.2 + V[i] * 0.5)) := by
      simp [of_step, List.getElem?_eq_getElem hi]
    obtain ⟨bs, hbs, himp⟩ := ih
      (if P.getD (i - 1) 0 < P.getD i 0 then (acc.1 + V[i], acc.2)
       else if P.getD i 0 < P.getD (i - 1) 0 then (acc.1, acc.2 + V[i])
       else (acc.1 + V[i] * 0.5, acc.2 + V[i] * 0.5)) hrest
    refine ⟨bs, ?_, ?_⟩
    · rw [List.foldl_cons, hstep, hbs]
    · intro hnn h1 h2
      have hv : 0 ≤ V[i] := hnn _ (List.getElem_mem hi)
      refine himp hnn ?_ ?_ <;> split_ifs <;> dsimp only <;> linarith

lemma of_volumes_spec (P V : List ℚ) (hle : P.length ≤ V.length) :
    ∃ bs, of_volumes P V = some bs ∧ ((∀ v ∈ V, 0 ≤ v) → 0 ≤ bs.1 ∧ 0 ≤ bs.2) := by
  unfold of_volumes
  obtain ⟨bs, hbs, himp⟩ := of_fold_spec P V (List.range' 1 (P.length - 1)) (0, 0)
    (by intro i hi; have hmem := List.mem_range'_1.mp hi; omega)
  exact ⟨bs, hbs, fun hnn => himp hnn (le_refl 0) (le_refl 0)⟩

lemma order_flow_cases (P V : List ℚ) (hle : P.length ≤ V.length)
    (hnn : ∀ v ∈ V, 0 ≤ v) :
    ∃ fl, order_flow P V = some fl ∧ 0 ≤ fl.buy_pressure ∧ fl.buy_pressure ≤ 1 := by
  unfold order_flow
  split_ifs with hg
  · exact ⟨flow_default, rfl, by unfold flow_default; norm_num⟩
  · obtain ⟨bs, hbs, himp⟩ := of_volumes_spec P V hle
    obtain ⟨hb, hs⟩ := himp hnn
    rw [hbs]
    dsimp only
    split_ifs with hz
    · exact ⟨flow_default, rfl, by unfold flow_default; norm_num⟩
    · have heps : (0 : ℚ) < 0.001 := by norm_num
      have hpd : pyDiv bs.1 (bs.2 + 0.001) = some (bs.1 / (bs.2 + 0.001)) := by
        unfold pyDiv
        rw [if_neg (by intro h; linarith)]
      rw [hpd]
      have ht : 0 < bs.1 + bs.2 := lt_of_le_of_ne (by linarith) (Ne.symm hz)
      refine ⟨_, rfl, ?_, ?_⟩
      · exact pyRound2_nonneg (div_nonneg hb ht.le)
      · exact pyRound2_le_one ((div_le_one ht).mpr (by linarith))

lemma ite20_nonneg (c : Prop) [Decidable c] : (0 : ℚ) ≤ if c then 20 else 0 := by
  split_ifs <;> norm_num

lemma volume_strength_some (V : List ℚ) (hnn : ∀ v ∈ V, 0 ≤ v) :
    ∃ vs, volume_strength_of V = some vs := by
  have havg : 0 ≤ V.sum / (V.length : ℚ) :=
    div_nonneg (List.sum_nonneg hnn) (by positivity)
  have heps : (0 : ℚ) < 0.001 := by norm_num
  unfold volume_strength_of pyDiv
  rw [if_neg (by intro h; linarith)]
  exact ⟨_, rfl⟩

lemma dict_setup_score_full (vs g m ss : ℚ) (hss0 : 0 ≤ ss) (hss1 : ss ≤ 100) :
    0 ≤ dict_setup_score [("gap", g), ("momentum", m), ("volume_strength", vs),
        ("setup_strength", ss)] ∧
      dict_setup_score [("gap", g), ("momentum", m), ("volume_strength", vs),
        ("setup_strength", ss)] ≤ 1 := by
  unfold dict_setup_score
  rw [dictGet_full_setup]
  constructor <;> linarith

lemma market_open_setup_some (P V : List ℚ) (hnn : ∀ v ∈ V, 0 ≤ v) :
    ∃ d, market_open_setup P V = some d ∧
      0 ≤ dict_setup_score d ∧ dict_setup_score d ≤ 1 := by
  unfold market_open_setup
  split_ifs with h
  · refine ⟨setup_fallback, rfl, ?_⟩
    unfold dict_setup_score setup_fallback
    rw [dictGet_fallback_setup]
    norm_num
  · obtain ⟨vs, hvs⟩ := volume_strength_some V hnn
    rw [hvs]
    dsimp only
    refine ⟨_, rfl, ?_⟩
    apply dict_setup_score_full
    · have h4 : (0 : ℚ) ≤ if 0 < gap_of P ∧ 0 < momentum_of P then 40 else 0 := by
        split_ifs <;> norm_num
      have h1 := ite20_nonneg (1 < |gap_of P|)
      have h2 := ite20_nonneg (1 < |momentum_of P|)
      have h3 := ite20_nonneg ((1.5 : ℚ) < vs)
      exact le_min (by linarith) (by norm_num)
    · exact min_le_right _ _

lemma clamp01_bounds (x : ℚ) : 0 ≤ max 0 (min 1 x) ∧ max 0 (min 1 x) ≤ 1 :=
  ⟨le_max_left 0 _, max_le (by norm_num) (min_le_left _ _)⟩

lemma vwap_score_bounds (P V : List ℚ) (cp : ℚ) :
    0 ≤ vwap_score_of P V cp ∧ vwap_score_of P V cp ≤ 1 := clamp01_bounds _

lemma microstructure_some (P V : List ℚ) (hnn : ∀ v ∈ V, 0 ≤ v) :
    ∃ m, microstructure P V = some m ∧ 0 ≤ m.efficiency ∧ m.efficiency ≤ 1 := by
  unfold microstructure
  split_ifs with hg
  · exact ⟨micro_default, rfl, by unfold micro_default; norm_num⟩
  · dsimp only
    by_cases hrv : V.drop (V.length - 20) = []
    · rw [if_pos hrv]
      exact ⟨_, rfl, by norm_num⟩
    · rw [if_neg hrv]
      have havg : 0 ≤ (V.drop (V.length - 20)).sum /
          ((V.drop (V.length - 20)).length : ℚ) := by
        apply div_nonneg
        · exact List.sum_nonneg fun v hv => hnn v (List.drop_subset _ _ hv)
        · positivity
      have heps : (0 : ℚ) < 0.001 := by norm_num
      have hpd : pyDiv |(P.drop (P.length - 20)).getLastD 0 - (P.drop (P.length - 20)).headD 0|
          ((V.drop (V.length - 20)).sum / ((V.drop (V.length - 20)).length : ℚ) + 0.001) =
          some (|(P.drop (P.length - 20)).getLastD 0 - (P.drop (P.length - 20)).headD 0| /
            ((V.drop (V.length - 20)).sum / ((V.drop (V.length - 20)).length : ℚ) + 0.001)) := by
        unfold pyDiv
        rw [if_neg (by intro h; linarith)]
      rw [hpd]
      refine ⟨_, rfl, ?_, ?_⟩
      · apply pyRound2_nonneg
        apply le_min
        · apply div_nonneg (abs_nonneg _)
          linarith
        · norm_num
      · exact pyRound2_le_one (min_le_right _ 1)

lemma combined_of_bounds (P V : List ℚ) (cp : ℚ) (setup : List (String × ℚ))
    (flow : OrderFlow) (micro : Micro)
    (hds : 0 ≤ dict_setup_score setup ∧ dict_setup_score setup ≤ 1)
    (hbp : 0 ≤ flow.buy_pressure ∧ flow.buy_pressure ≤ 1)
    (heff : 0 ≤ micro.efficiency ∧ micro.efficiency ≤ 1) :
    0 ≤ combined_of P V cp setup flow micro ∧ combined_of P V cp setup flow micro ≤ 1 := by
  obtain ⟨a1, a2⟩ := hds
  obtain ⟨b1, b2⟩ := hbp
  obtain ⟨c1, c2⟩ := vwap_score_bounds P V cp
  obtain ⟨d1, d2⟩ := heff
  obtain ⟨e1, e2⟩ := clamp01_bounds (0.5 + micro.imbalance)
  unfold combined_of
  constructor <;> nlinarith

lemma signal_label_conf_bounds {c : ℚ} (h0 : 0 ≤ c) (h1 : c ≤ 1) :
    0 ≤ (signal_label c).2 ∧ (signal_label c).2 ≤ 1 := by
  unfold signal_label
  split_ifs <;> refine ⟨?_, ?_⟩ <;> dsimp only <;> linarith

lemma combined_raw_eq {P V : List ℚ} {setup : List (String × ℚ)} {flow : OrderFlow}
    {micro : Micro} (cp : ℚ) (hsetup : market_open_setup P V = some setup)
    (hflow : order_flow P V = some flow) (hmicro : microstructure P V = some micro) :
    combined_raw P V cp = combined_of P V cp setup flow micro := by
  unfold combined_raw
  rw [hsetup, hflow, hmicro, Option.getD_some, Option.getD_some, Option.getD_some]

lemma combined_signal_main (P V : List ℚ) (cp : ℚ) (setup : List (String × ℚ))
    (flow : OrderFlow) (micro : Micro) (hP : 2 ≤ P.length) (hV : 2 ≤ V.length)
    (hsetup : market_open_setup P V = some setup) (hflow : order_flow P V = some flow)
    (hmicro : microstructure P V = some micro) :
    combined_signal P V cp = some ⟨(signal_label (combined_of P V cp setup flow micro)).1,
      pyRound2 (signal_label (combined_of P V cp setup flow micro)).2,
      pyRound2 (combined_of P V cp setup flow micro),
      ⟨setup, flow, vwap P V, vwap_distance_of P V cp, micro, volume_profile 10 P V⟩⟩ := by
  unfold combined_signal
  rw [if_neg (combined_guard_false hP hV), hsetup, hflow, hmicro]

lemma pyRound2_half : pyRound2 (0.5 : ℚ) = 0.5 := by with_unfolding_all rfl

/-- C1 (amended with len(P) ≤ len(V), which the order-flow pass needs to stay
in bounds, and nonnegative volumes, which keep the unguarded epsilon-shifted
denominators of order_flow, market_open_setup and microstructure away from
zero): for histories of length at least 2, combined_signal maps the internal
combined score to the label by strict lower bounds: above 0.75 STRONG BUY
with confidence = combined, above 0.60 BUY with confidence = combined, above
0.40 HOLD with confidence fixed at 0.5, above 0.25 SELL with confidence =
1 - combined, else STRONG SELL with confidence = 1 - combined; each boundary
value falls into the lower bracket, and the reported confidence and
combined_score are rounded to two decimals on output. -/
theorem combined_signal_thresholds (P V : List ℚ) (cp : ℚ)
    (hP : 2 ≤ P.length) (hV : 2 ≤ V.length) (hle : P.length ≤ V.length)
    (hnn : ∀ v ∈ V, 0 ≤ v) :
    ∃ r, combined_signal P V cp = some r ∧
      r.combined_score = pyRound2 (combined_raw P V cp) ∧
      (0.75 < combined_raw P V cp →
        r.signal = "STRONG BUY" ∧ r.confidence = pyRound2 (combined_raw P V cp)) ∧
      (combined_raw P V cp ≤ 0.75 → 0.60 < combined_raw P V cp →
        r.signal = "BUY" ∧ r.confidence = pyRound2 (combined_raw P V cp)) ∧
      (combined_raw P V cp ≤ 0.60 → 0.40 < combined_raw P V cp →
        r.signal = "HOLD" ∧ r.confidence = 0.5) ∧
      (combined_raw P V cp ≤ 0.40 → 0.25 < combined_raw P V cp →
        r.signal = "SELL" ∧ r.confidence = pyRound2 (1 - combined_raw P V cp)) ∧
      (combined_raw P V cp ≤ 0.25 →
        r.signal = "STRONG SELL" ∧ r.confidence = pyRound2 (1 - combined_raw P V cp)) := by
  obtain ⟨setup, hsetup, _⟩ := market_open_setup_some P V hnn
  obtain ⟨flow, hflow, _, _⟩ := order_flow_cases P V hle hnn
  obtain ⟨micro, hmicro, _, _⟩ := microstructure_some P V hnn
  have hcr : combined_raw P V cp = combined_of P V cp setup flow micro :=
    combined_raw_eq cp hsetup hflow hmicro
  refine ⟨_, combined_signal_main P V cp setup flow micro hP hV hsetup hflow hmicro,
    ?_, ?_, ?_, ?_, ?_, ?_⟩
  · dsimp only
    rw [hcr]
  · intro h
    rw [hcr] at h
    have hsl : signal_label (combined_of P V cp setup flow micro) =
        ("STRONG BUY", combined_of P V cp setup flow micro) := by
      unfold signal_label
      rw [if_pos h]
    refine ⟨by dsimp only; rw [hsl], by dsimp only; rw [hsl, hcr]⟩
  · intro h1 h2
    rw [hcr] at h1 h2
    have hsl : signal_label (combined_of P V cp setup flow micro) = ("BUY", combined_of P V cp setup flow micro) := by
      unfold signal_label
      rw [if_neg (not_lt.mpr h1), if_pos h2]
    refine ⟨by dsimp only; rw [hsl], by dsimp only; rw [hsl, hcr]⟩
  · intro h1 h2
    rw [hcr] at h1 h2
    have hsl : signal_label (combined_of P V cp setup flow micro) = ("HOLD", 0.5) := by
      unfold signal_label
      rw [if_neg (by linarith), if_neg (not_lt.mpr h1), if_pos h2]
    refine ⟨by dsimp only; rw [hsl], ?_⟩
    dsimp only
    rw [hsl]
    exact pyRound2_half
  · intro h1 h2
    rw [hcr] at h1 h2
    have hsl : signal_label (combined_of P V cp setup flow micro) =
        ("SELL", 1 - combined_of P V cp setup flow micro) := by
      unfold signal_label
      rw [if_neg (by linarith), if_neg (by linarith), if_neg (not_lt.mpr h1), if_pos h2]
    refine ⟨by dsimp only; rw [hsl], by dsimp only; rw [hsl, hcr]⟩
  · intro h1
    rw [hcr] at h1
    have hsl : signal_label (combined_of P V cp setup flow micro) =
        ("STRONG SELL", 1 - combined_of P V cp setup flow micro) := by
      unfold signal_label
      rw [if_neg (by linarith), if_neg (by linarith), if_neg (by linarith),
        if_neg (not_lt.mpr h1)]
    refine ⟨by dsimp only; rw [hsl], by dsimp only; rw [hsl, hcr]⟩

/-- Witness for C1 at the concrete history of the spec's testable-properties
section. -/
theorem combined_signal_thresholds_witness :
    (2 ≤ ([100, 102, 104, 103, 105] : List ℚ).length) ∧
      ∃ r, combined_signal [100, 102, 104, 103, 105]
          [1000000, 1000000, 1000000, 1000000, 1000000] 105 = some r ∧
        r.combined_score = pyRound2 (combined_raw [100, 102, 104, 103, 105]
          [1000000, 1000000, 1000000, 1000000, 1000000] 105) := by
  refine ⟨by decide, ?_⟩
  obtain ⟨r, hr, hsc, _⟩ := combined_signal_thresholds [100, 102, 104, 103, 105]
    [1000000, 1000000, 1000000, 1000000, 1000000] 105 (by decide) (by decide) (by decide)
    (by with_unfolding_all decide)
  exact ⟨r, hr, hsc⟩

/-- Counterexample to C1 as frozen: with len(P) = 3 and len(V) = 2 (both at
least 2), the order-flow loop indexes volumes[2] out of range, so
combined_signal raises instead of returning a labelled signal (none marks the
IndexError); and with len(P) = len(V) = 2 but a sell volume of exactly
-0.001, the order-flow ratio divides by sell_volume + 0.001 = 0 and
combined_signal raises ZeroDivisionError. -/
theorem combined_signal_thresholds_ce :
    combined_signal [1, 2, 3] [1, 1] 3 = none ∧
      combined_signal [2, 1] [0, -0.001] 1 = none := by
  with_unfolding_all decide

/-- C2: on histories shorter than 2 (in particular empty ones),
combined_signal returns the neutral default: HOLD with confidence 0.5,
combined_score 0.5, and placeholder components echoing current_price as the
vwap price. -/
theorem combined_signal_default (P V : List ℚ) (cp : ℚ)
    (h : P.length < 2 ∨ V.length < 2) :
    combined_signal P V cp = some ⟨"HOLD", 0.5, 0.5,
      ⟨[("gap", 0), ("momentum", 0), ("setup_strength", 0)], ⟨0.5, 0.5, 1⟩, some cp, 0,
        ⟨0, 0.5, 0.5⟩, ⟨cp, [cp]⟩⟩⟩ := by
  unfold combined_signal
  rw [if_pos (Or.inr (Or.inr h))]
  rfl

/-- Witness for C2 at the empty histories of the spec's testable-properties
section. -/
theorem combined_signal_default_witness :
    ((([] : List ℚ)).length < 2 ∨ (([] : List ℚ)).length < 2) ∧
      combined_signal [] [] 100 = some ⟨"HOLD", 0.5, 0.5,
        ⟨[("gap", 0), ("momentum", 0), ("setup_strength", 0)], ⟨0.5, 0.5, 1⟩, some 100, 0,
          ⟨0, 0.5, 0.5⟩, ⟨100, [100]⟩⟩⟩ :=
  ⟨Or.inl (by decide), combined_signal_default [] [] 100 (Or.inl (by decide))⟩

/-- C3 (amended with len(P) ≤ len(V), which the order-flow pass needs to stay
in bounds; the claim's own nonnegative-volume hypothesis also keeps every
unguarded epsilon-shifted denominator away from zero): for histories of
length at least 2 with nonnegative volumes,
combined_signal combines the five sub-scores with exactly the fixed weights
0.20, 0.25, 0.20, 0.15, 0.20 (which sum to 1), the internal combined score
lies in the closed unit interval, and the reported combined_score and
confidence lie in the closed unit interval as well. -/
theorem combined_signal_weights_bounds (P V : List ℚ) (cp : ℚ)
    (hP : 2 ≤ P.length) (hV : 2 ≤ V.length) (hle : P.length ≤ V.length)
    (hnn : ∀ v ∈ V, 0 ≤ v) :
    combined_raw P V cp =
        0.2 * setup_score_of P V + 0.25 * ((order_flow P V).getD flow_default).buy_pressure +
          0.2 * vwap_score_of P V cp + 0.15 * micro_score_of P V + 0.2 * vol_score_of P V ∧
      (0.2 + 0.25 + 0.2 + 0.15 + 0.2 : ℚ) = 1 ∧
      0 ≤ combined_raw P V cp ∧ combined_raw P V cp ≤ 1 ∧
      ∃ r, combined_signal P V cp = some r ∧
        0 ≤ r.combined_score ∧ r.combined_score ≤ 1 ∧
        0 ≤ r.confidence ∧ r.confidence ≤ 1 := by
  obtain ⟨setup, hsetup, hds1, hds2⟩ := market_open_setup_some P V hnn
  obtain ⟨flow, hflow, hbp1, hbp2⟩ := order_flow_cases P V hle hnn
  obtain ⟨micro, hmicro, he1, he2⟩ := microstructure_some P V hnn
  have hcr : combined_raw P V cp = combined_of P V cp setup flow micro :=
    combined_raw_eq cp hsetup hflow hmicro
  obtain ⟨hb1, hb2⟩ := combined_of_bounds P V cp setup flow micro ⟨hds1, hds2⟩
    ⟨hbp1, hbp2⟩ ⟨he1, he2⟩
  obtain ⟨hc1, hc2⟩ := signal_label_conf_bounds hb1 hb2
  refine ⟨?_, by norm_num, by rw [hcr]; exact hb1, by rw [hcr]; exact hb2,
    _, combined_signal_main P V cp setup flow micro hP hV hsetup hflow hmicro, ?_, ?_, ?_, ?_⟩
  · unfold combined_raw combined_of setup_score_of micro_score_of vol_score_of
    ring
  · exact pyRound2_nonneg hb1
  · exact pyRound2_le_one hb2
  · exact pyRound2_nonneg hc1
  · exact pyRound2_le_one hc2

/-- Witness for C3 at a concrete five-entry history. -/
theorem combined_signal_weights_bounds_witness :
    (∀ v ∈ ([1, 1, 1, 1, 1] : List ℚ), 0 ≤ v) ∧
      0 ≤ combined_raw [10, 11, 12, 13, 14] [1, 1, 1, 1, 1] 12 ∧
      combined_raw [10, 11, 12, 13, 14] [1, 1, 1, 1, 1] 12 ≤ 1 := by
  refine ⟨by with_unfolding_all decide, ?_, ?_⟩ <;>
  · obtain ⟨_, _, hb1, hb2, _⟩ := combined_signal_weights_bounds [10, 11, 12, 13, 14]
      [1, 1, 1, 1, 1] 12 (by decide) (by decide) (by decide) (by with_unfolding_all decide)
    first
    | exact hb1
    | exact hb2

/-- Counterexample to C3 as frozen: with len(P) = 4 and len(V) = 2 (both at
least 2, volumes nonnegative), the order-flow loop indexes volumes[2] out of
range, so combined_signal raises (none marks the IndexError) and no
combined_score in the unit interval is returned. -/
theorem combined_signal_weights_bounds_ce : combined_signal [1, 2, 3, 4] [1, 1] 4 = none := by
  with_unfolding_all decide

/-- Modelled from the claim wording of C4: setup strength as the sum of four
20-point flags (significant gap, significant momentum, high volume strength,
gap and momentum of the same sign), capped at 100.  The claim treats the
volume strength as a plain number, so the defined value is used.  Kept only
to be compared against the source's market_open_setup. -/
def claimed_setup_strength (P V : List ℚ) : ℚ :=
  min ((if 1 < |gap_of P| then (20 : ℚ) else 0) + (if 1 < |momentum_of P| then 20 else 0) +
    (if (1.5 : ℚ) < (volume_strength_of V).getD 0 then 20 else 0) +
    (if (0 < gap_of P ∧ 0 < momentum_of P) ∨ (gap_of P < 0 ∧ momentum_of P < 0) then 20
     else 0)) 100

/-- C4 (amended): on short history market_open_setup returns the fallback
with gap 0, momentum 0.5 and value 0 stored under the key "strength" (not
"setup_strength"); with five or more observations and nonnegative volumes
(with average volume exactly -0.001 the unguarded volume-strength division
raises ZeroDivisionError) it returns the full dict whose setup_strength
equals three 20-point flags (significant gap, significant momentum, volume
strength above 1.5) plus a 40-point flag that fires when gap and momentum are
both positive, capped at 100. -/
theorem market_open_setup_strength (P V : List ℚ) :
    (P.length < 5 ∨ V.length < 5 →
      market_open_setup P V = some [("gap", 0), ("momentum", 0.5), ("strength", 0)]) ∧
    (5 ≤ P.length → 5 ≤ V.length → (∀ v ∈ V, 0 ≤ v) →
      ∃ vs, volume_strength_of V = some vs ∧
        market_open_setup P V = some [("gap", gap_of P),
          ("momentum", pyRound2 (momentum_of P)), ("volume_strength", vs),
          ("setup_strength", min ((if 1 < |gap_of P| then (20 : ℚ) else 0) +
            (if 1 < |momentum_of P| then 20 else 0) + (if (1.5 : ℚ) < vs then 20 else 0) +
            (if 0 < gap_of P ∧ 0 < momentum_of P then 40 else 0)) 100)]) := by
  constructor
  · intro h
    unfold market_open_setup
    rw [if_pos h]
    rfl
  · intro h5 h5' hnn
    obtain ⟨vs, hvs⟩ := volume_strength_some V hnn
    refine ⟨vs, hvs, ?_⟩
    unfold market_open_setup
    rw [if_neg (by omega), hvs]

/-- Witness for C4 exercising both the fallback branch and the main branch of
the amended statement. -/
theorem market_open_setup_strength_witness :
    market_open_setup [1] [1] = some [("gap", 0), ("momentum", 0.5), ("strength", 0)] ∧
      ∃ vs, volume_strength_of [2, 2, 2, 2, 2] = some vs ∧
        market_open_setup [10, 11, 12, 13, 14] [2, 2, 2, 2, 2] =
          some [("gap", gap_of [10, 11, 12, 13, 14]),
            ("momentum", pyRound2 (momentum_of [10, 11, 12, 13, 14])),
            ("volume_strength", vs),
            ("setup_strength", min ((if 1 < |gap_of [10, 11, 12, 13, 14]| then (20 : ℚ) else 0) +
              (if 1 < |momentum_of [10, 11, 12, 13, 14]| then 20 else 0) +
              (if (1.5 : ℚ) < vs then 20 else 0) +
              (if 0 < gap_of [10, 11, 12, 13, 14] ∧ 0 < momentum_of [10, 11, 12, 13, 14] then 40
               else 0)) 100)] :=
  ⟨(market_open_setup_strength [1] [1]).1 (Or.inl (by decide)),
    (market_open_setup_strength [10, 11, 12, 13, 14] [2, 2, 2, 2, 2]).2 (by decide) (by decide)
      (by with_unfolding_all decide)⟩

/-- Counterexample to C4 as frozen: at the five-entry history below the code
returns setup_strength 80 (the aligned-direction flag is worth 40 points and
fires only when gap and momentum are both positive) while the claimed sum of
four 20-point flags is 60; the short-history fallback stores its zero under
the key "strength", so no "setup_strength" entry exists there; and at an
average volume of exactly -0.001 the unguarded volume-strength division
raises ZeroDivisionError (none) although len(P) and len(V) are at least 5. -/
theorem market_open_setup_strength_ce :
    dictGet ((market_open_setup [100, 110, 110, 110, 110] [1, 1, 1, 1, 1]).getD [])
        "setup_strength" 0 = 80 ∧
      claimed_setup_strength [100, 110, 110, 110, 110] [1, 1, 1, 1, 1] = 60 ∧
      (80 : ℚ) ≠ 60 ∧
      market_open_setup [1, 1, 1, 1, 1] [-0.005, 0, 0, 0, 0] = none ∧
      ("strength", (0 : ℚ)) ∈ (market_open_setup ([] : List ℚ) []).getD [] ∧
      ¬ ("setup_strength", (0 : ℚ)) ∈ (market_open_setup ([] : List ℚ) []).getD [] := by
  with_unfolding_all decide

/-- C5: the claim says no core operation raises on any price history and that
every division is guarded, but the per-step returns computed inside
get_session_metrics divide by prices[i-1] with no zero guard: on P = [0, 1]
the source raises ZeroDivisionError (none marks it), while the guarded
returns of microstructure on the same history evaluate to [0]. -/
theorem session_metrics_div_by_zero :
    session_returns [0, 1] = none ∧ micro_returns [0, 1] = [0] := by
  with_unfolding_all decide

lemma avg_gain_nonneg (P : List ℚ) (period : ℕ) : 0 ≤ avg_gain P period := by
  unfold avg_gain
  split_ifs with h
  · norm_num
  · apply div_nonneg _ (by positivity)
    apply List.sum_nonneg
    intro x hx
    have := List.of_mem_filter hx
    have hx0 : 0 < x := by simpa using this
    linarith

lemma avg_loss_nonneg (P : List ℚ) (period : ℕ) : 0 ≤ avg_loss P period := by
  unfold avg_loss
  split_ifs with h
  · norm_num
  · apply div_nonneg _ (by positivity)
    apply List.sum_nonneg
    intro x hx
    unfold losses at hx
    obtain ⟨d, _, rfl⟩ := List.mem_map.mp hx
    exact abs_nonneg d

lemma rsi_of_avg_loss_zero (P : List ℚ) (period : ℕ) (hlen : period + 1 ≤ P.length)
    (h : avg_loss P period = 0) : rsi P period = some 100 := by
  unfold rsi
  rw [if_neg (by omega), if_pos h]

lemma rsi_all_gains (P : List ℚ) (period : ℕ) (hlen : period + 1 ≤ P.length)
    (h : ∀ d ∈ deltas P period, 0 < d) : rsi P period = some 100 := by
  apply rsi_of_avg_loss_zero P period hlen
  have hl : losses P period = [] := by
    unfold losses
    rw [List.filter_eq_nil_iff.mpr fun d hd => by simpa using h d hd]
    rfl
  unfold avg_loss
  rw [if_pos hl]

/-- C6: rsi returns the absence marker on fewer than period + 1 observations;
any defined value lies in the closed interval from 0 to 100; when the average
loss over the trailing deltas vanishes it returns exactly 100, and in
particular it does so whenever every trailing delta is a gain. -/
theorem rsi_props (P : List ℚ) (period : ℕ) :
    (P.length < period + 1 → rsi P period = none) ∧
    (∀ x, rsi P period = some x → 0 ≤ x ∧ x ≤ 100) ∧
    (period + 1 ≤ P.length → avg_loss P period = 0 → rsi P period = some 100) ∧
    (period + 1 ≤ P.length → (∀ d ∈ deltas P period, 0 < d) → rsi P period = some 100) := by
  refine ⟨?_, ?_, rsi_of_avg_loss_zero P period, rsi_all_gains P period⟩
  · intro h
    unfold rsi
    rw [if_pos h]
  · intro x hx
    unfold rsi at hx
    split_ifs at hx with h1 h2
    · rw [Option.some.injEq] at hx
      subst hx
      norm_num
    · rw [Option.some.injEq] at hx
      subst hx
      have hal : 0 < avg_loss P period :=
        lt_of_le_of_ne (avg_loss_nonneg P period) (Ne.symm h2)
      have hag := avg_gain_nonneg P period
      have hrs : 0 ≤ avg_gain P period / avg_loss P period := div_nonneg hag hal.le
      have hden : (1 : ℚ) ≤ 1 + avg_gain P period / avg_loss P period := by linarith
      have hfr1 : 100 / (1 + avg_gain P period / avg_loss P period) ≤ 100 :=
        div_le_self (by norm_num) hden
      have hfr2 : 0 < 100 / (1 + avg_gain P period / avg_loss P period) :=
        div_pos (by norm_num) (by linarith)
      exact ⟨pyRound2_nonneg (by linarith), pyRound2_le_hundred (by linarith)⟩

/-- Witness for C6 at a strictly increasing 15-entry history: every trailing
delta is a gain and rsi is exactly 100. -/
theorem rsi_props_witness :
    (14 + 1 ≤ ([1, 2, 3, 4, 5, 6, 7, 8, 9, 10, 11, 12, 13, 14, 15] : List ℚ).length) ∧
      rsi [1, 2, 3, 4, 5, 6, 7, 8, 9, 10, 11, 12, 13, 14, 15] 14 = some 100 :=
  ⟨by decide, (rsi_props [1, 2, 3, 4, 5, 6, 7, 8, 9, 10, 11, 12, 13, 14, 15] 14).2.2.2
    (by decide) (by with_unfolding_all decide)⟩

/-- C10: on a constant history of length at least period + 1 every delta is
zero, each zero is appended to the losses, the average loss vanishes, and rsi
returns exactly 100 even though no delta is a gain: a flat market reads as
maximally overbought. -/
theorem rsi_flat_is_overbought (c : ℚ) (n period : ℕ) (h : period + 1 ≤ n) :
    rsi (List.replicate n c) period = some 100 := by
  have hlen : (List.replicate n c).length = n := List.length_replicate n c
  have hdelta : ∀ d ∈ deltas (List.replicate n c) period, d = 0 := by
    intro d hd
    unfold deltas at hd
    obtain ⟨j, hjr, rfl⟩ := List.mem_map.mp hd
    have hj : j < period := List.mem_range.mp hjr
    rw [List.reverse_replicate]
    have g1 : (List.replicate n c).getD j 0 = c := by
      simp [List.getD, List.getElem?_replicate, (by omega : j < n)]
    have g2 : (List.replicate n c).getD (j + 1) 0 = c := by
      simp [List.getD, List.getElem?_replicate, (by omega : j + 1 < n)]
    rw [g1, g2, sub_self]
  apply rsi_of_avg_loss_zero _ _ (by omega)
  have hzero : ∀ x ∈ losses (List.replicate n c) period, x = 0 := by
    intro x hx
    unfold losses at hx
    obtain ⟨d, hdf, rfl⟩ := List.mem_map.mp hx
    have hdm : d ∈ deltas (List.replicate n c) period := List.mem_of_mem_filter hdf
    rw [hdelta d hdm]
    exact abs_zero
  unfold avg_loss
  split_ifs with h0
  · rfl
  · rw [List.sum_eq_zero hzero, zero_div]

/-- Witness for C10 at a constant 15-entry history with period 14. -/
theorem rsi_flat_is_overbought_witness :
    (14 + 1 ≤ 15) ∧ rsi (List.replicate 15 (5 : ℚ)) 14 = some 100 :=
  ⟨by decide, rsi_flat_is_overbought 5 15 14 (by decide)⟩

lemma addToBins_ne_nil (acc : List (ℚ × ℚ)) (k v : ℚ) : addToBins acc k v ≠ [] := by
  cases acc with
  | nil => simp [addToBins]
  | cons b rest =>
    obtain ⟨bk, bv⟩ := b
    simp only [addToBins]
    split_ifs <;> simp

lemma foldl_addToBins_ne_nil (g : ℚ × ℚ → ℚ) :
    ∀ (pairs acc : List (ℚ × ℚ)), (pairs ≠ [] ∨ acc ≠ []) →
      pairs.foldl (fun a pv => addToBins a (g pv) pv.2) acc ≠ [] := by
  intro pairs
  induction pairs with
  | nil =>
    intro acc h
    exact h.resolve_left (fun hn => hn rfl)
  | cons p rest ih =>
    intro acc _
    exact ih (addToBins acc (g p) p.2) (Or.inr (addToBins_ne_nil acc (g p) p.2))

lemma bin_volumes_ne_nil (bins : ℕ) (P V : List ℚ) (hP : 2 ≤ P.length)
    (hV : 2 ≤ V.length) : bin_volumes_of bins P V ≠ [] := by
  unfold bin_volumes_of
  apply foldl_addToBins_ne_nil
  left
  have hzip : 0 < (P.zip V).length := by
    rw [List.length_zip]
    omega
  exact List.length_pos.mp hzip

lemma addToBins_snd_sum (acc : List (ℚ × ℚ)) (k v : ℚ) :
    ((addToBins acc k v).map Prod.snd).sum = (acc.map Prod.snd).sum + v := by
  induction acc with
  | nil => simp [addToBins]
  | cons b rest ih =>
    obtain ⟨bk, bv⟩ := b
    simp only [addToBins]
    split_ifs with h
    · simp only [List.map_cons, List.sum_cons]
      ring
    · simp only [List.map_cons, List.sum_cons, ih]
      ring

lemma foldl_addToBins_snd_sum (g : ℚ × ℚ → ℚ) :
    ∀ (pairs acc : List (ℚ × ℚ)),
      ((pairs.foldl (fun a pv => addToBins a (g pv) pv.2) acc).map Prod.snd).sum =
        (acc.map Prod.snd).sum + (pairs.map Prod.snd).sum := by
  intro pairs
  induction pairs with
  | nil =>
    intro acc
    simp
  | cons p rest ih =>
    intro acc
    simp only [List.foldl_cons, List.map_cons, List.sum_cons, ih, addToBins_snd_sum]
    ring

lemma total_vol_eq (bins : ℕ) (P V : List ℚ) (hlen : P.length = V.length) :
    total_vol_of bins P V = V.sum := by
  unfold total_vol_of bin_volumes_of
  rw [foldl_addToBins_snd_sum]
  rw [List.map_snd_zip P V (le_of_eq hlen.symm)]
  simp

lemma sorted_bins_sum (bins : ℕ) (P V : List ℚ) :
    ((sorted_bins_of bins P V).map Prod.snd).sum = total_vol_of bins P V := by
  unfold sorted_bins_of total_vol_of
  exact ((List.perm_insertionSort _ _).map Prod.snd).sum_eq

lemma sorted_bins_ne_nil (bins : ℕ) (P V : List ℚ) (hP : 2 ≤ P.length)
    (hV : 2 ≤ V.length) : sorted_bins_of bins P V ≠ [] := by
  intro h
  have hperm := List.perm_insertionSort (fun a b : ℚ × ℚ => b.2 ≤ a.2) (bin_volumes_of bins P V)
  unfold sorted_bins_of at h
  rw [h] at hperm
  exact bin_volumes_ne_nil bins P V hP hV (List.Perm.nil_eq hperm).symm

lemma value_area_loop_spec : ∀ (bs : List (ℚ × ℚ)), ∀ (cum target : ℚ), bs ≠ [] →
    target ≤ cum + (bs.map Prod.snd).sum →
    ∃ k, 1 ≤ k ∧ k ≤ bs.length ∧
      value_area_loop bs cum target = (bs.take k).map (fun b => pyRound2 b.1) ∧
      target ≤ cum + ((bs.take k).map Prod.snd).sum ∧
      ∀ j, 1 ≤ j → j < k → cum + ((bs.take j).map Prod.snd).sum < target := by
  intro bs
  induction bs with
  | nil => intro cum target h _; exact absurd rfl h
  | cons b rest ih =>
    intro cum target _ hsum
    by_cases hc : target ≤ cum + b.2
    · refine ⟨1, le_refl 1, by simp, ?_, ?_, ?_⟩
      · simp [value_area_loop, if_pos hc]
      · simpa using hc
      · intro j hj1 hj2
        omega
    · cases rest with
      | nil =>
        exfalso
        simp only [List.map_cons, List.map_nil, List.sum_cons, List.sum_nil, add_zero] at hsum
        exact hc hsum
      | cons b2 rest2 =>
        obtain ⟨k', h1, h2, h3, h4, h5⟩ := ih (cum + b.2) target (by simp) (by
          simp only [List.map_cons, List.sum_cons] at hsum ⊢
          linarith)
        refine ⟨k' + 1, by omega, ?_, ?_, ?_, ?_⟩
        · simp only [List.length_cons] at h2 ⊢
          omega
        · have hstep : value_area_loop (b :: b2 :: rest2) cum target =
              pyRound2 b.1 :: value_area_loop (b2 :: rest2) (cum + b.2) target := by
            simp only [value_area_loop, if_neg hc]
          rw [hstep, h3]
          simp [List.take_succ_cons]
        · simp only [List.take_succ_cons, List.map_cons, List.sum_cons]
          linarith
        · intro j hj1 hjk
          cases j with
          | zero => omega
          | succ j' =>
            simp only [List.take_succ_cons, List.map_cons, List.sum_cons]
            rcases Nat.eq_zero_or_pos j' with hj0 | hj0
            · subst hj0
              simp only [List.take_zero, List.map_nil, List.sum_nil, add_zero]
              linarith [not_le.mp hc]
            · have := h5 j' hj0 (by omega)
              linarith

/-- C7 (amended: the value area is the smallest nonempty prefix; on an
all-zero volume history the empty prefix would already meet the target, but
the loop always takes one bucket first): for same-length histories with at
least two observations, nonnegative volumes and a non-degenerate price range,
value_area consists of the shortest nonempty prefix of the buckets in
descending-volume order whose cumulative volume reaches 70 percent of the
total, and the returned list is sorted ascending by price level. -/
theorem volume_profile_value_area (P V : List ℚ) (hP : 2 ≤ P.length)
    (hlen : P.length = V.length) (hnn : ∀ v ∈ V, 0 ≤ v)
    (hne : listMin P ≠ listMax P) :
    List.Sorted (fun a b => a ≤ b) (volume_profile 10 P V).value_area ∧
    ∃ k, 1 ≤ k ∧ k ≤ (sorted_bins_of 10 P V).length ∧
      (volume_profile 10 P V).value_area =
        List.insertionSort (fun a b => a ≤ b)
          (((sorted_bins_of 10 P V).take k).map fun b => pyRound2 b.1) ∧
      target_vol_of 10 P V ≤ (((sorted_bins_of 10 P V).take k).map Prod.snd).sum ∧
      ∀ j, 1 ≤ j → j < k →
        (((sorted_bins_of 10 P V).take j).map Prod.snd).sum < target_vol_of 10 P V := by
  have hV : 2 ≤ V.length := hlen ▸ hP
  have hguard : ¬(P.length < 2 ∨ V.length < 2) := by
    push_neg
    exact ⟨by omega, by omega⟩
  have hva : (volume_profile 10 P V).value_area =
      List.insertionSort (fun a b => a ≤ b)
        (value_area_loop (sorted_bins_of 10 P V) 0 (target_vol_of 10 P V)) := by
    unfold volume_profile
    rw [if_neg hguard, if_neg hne]
  have htot : 0 ≤ total_vol_of 10 P V := by
    rw [total_vol_eq 10 P V hlen]
    exact List.sum_nonneg hnn
  have htarget : target_vol_of 10 P V ≤ 0 + ((sorted_bins_of 10 P V).map Prod.snd).sum := by
    rw [sorted_bins_sum, zero_add]
    unfold target_vol_of
    nlinarith
  obtain ⟨k, hk1, hk2, hkres, hkcum, hkmin⟩ :=
    value_area_loop_spec (sorted_bins_of 10 P V) 0 (target_vol_of 10 P V)
      (sorted_bins_ne_nil 10 P V hP hV) htarget
  refine ⟨?_, k, hk1, hk2, ?_, ?_, ?_⟩
  · rw [hva]
    exact List.sorted_insertionSort _ _
  · rw [hva, hkres]
  · simpa using hkcum
  · intro j hj1 hj2
    simpa using hkmin j hj1 hj2

/-- Witness for C7 at a two-entry history with distinct prices and positive
volumes. -/
theorem volume_profile_value_area_witness :
    (listMin [1, 2] ≠ listMax [1, 2]) ∧
      List.Sorted (fun a b => a ≤ b) (volume_profile 10 [1, 2] [1, 3]).value_area :=
  ⟨by with_unfolding_all decide,
    (volume_profile_value_area [1, 2] [1, 3] (by decide) (by decide)
      (by with_unfolding_all decide) (by with_unfolding_all decide)).1⟩

/-- Counterexample to C7 as frozen: with all-zero (nonnegative) volumes the
70 percent target is 0, so the empty prefix of the descending-volume buckets
already has cumulative volume at least the target, yet the loop always
appends a first bucket: value_area is [1], not the smallest such prefix. -/
theorem volume_profile_value_area_ce :
    (volume_profile 10 [1, 2] [0, 0]).value_area = [1] ∧
      target_vol_of 10 [1, 2] [0, 0] ≤
        (((sorted_bins_of 10 [1, 2] [0, 0]).take 0).map Prod.snd).sum ∧
      (((sorted_bins_of 10 [1, 2] [0, 0]).take 0).map fun b => pyRound2 b.1) = ([] : List ℚ) ∧
      ([1] : List ℚ) ≠ [] := by
  with_unfolding_all decide

lemma run_ticks_hist (sym : String) :
    ∀ (calls : List (String × ℚ × ℤ)) (st : Store),
      histOf (run_ticks st calls) sym =
        (prices_for sym calls).foldl (fun h p => lastN MAX_HISTORY (h ++ [p])) (histOf st sym) := by
  intro calls
  induction calls with
  | nil =>
    intro st
    rfl
  | cons c rest ih =>
    intro st
    have hrun : run_ticks st (c :: rest) =
        run_ticks (update_market_snapshot st c.1 c.2.1 c.2.2) rest := rfl
    by_cases h : c.1 = sym
    · subst h
      have hfil : prices_for c.1 (c :: rest) = c.2.1 :: prices_for c.1 rest := by
        unfold prices_for
        rw [List.filter_cons_of_pos (by simp)]
        rfl
      have hupd : histOf (update_market_snapshot st c.1 c.2.1 c.2.2) c.1 =
          lastN MAX_HISTORY (histOf st c.1 ++ [c.2.1]) := by
        unfold update_market_snapshot histOf
        dsimp only
        rw [if_pos rfl]
        rfl
      rw [hrun, ih, hupd, hfil]
      rfl
    · have hfil : prices_for sym (c :: rest) = prices_for sym rest := by
        unfold prices_for
        rw [List.filter_cons_of_neg (by simpa using h)]
      have hupd : histOf (update_market_snapshot st c.1 c.2.1 c.2.2) sym = histOf st sym := by
        unfold update_market_snapshot histOf
        dsimp only
        rw [if_neg (fun hs => h hs.symm)]
      rw [hrun, ih, hupd, hfil]

lemma foldl_lastN_append :
    ∀ (ps acc : List ℚ), acc.length ≤ MAX_HISTORY →
      ps.foldl (fun h p => lastN MAX_HISTORY (h ++ [p])) acc = lastN MAX_HISTORY (acc ++ ps) := by
  intro ps
  induction ps with
  | nil =>
    intro acc hacc
    rw [List.foldl_nil, List.append_nil, lastN_of_length_le hacc]
  | cons p rest ih =>
    intro acc hacc
    rw [List.foldl_cons, ih _ (lastN_length_le _ _), lastN_append_lastN, List.append_assoc]
    rfl

/-- C8: starting from the empty store, the history kept for a symbol is
always the suffix of the most recent 100 prices recorded for it, so its
length never exceeds 100; after exactly 150 ticks for one symbol it holds
exactly 100 entries, namely ticks 51 through 150 in order. -/
theorem history_store_bounded (calls : List (String × ℚ × ℤ)) (sym : String) :
    histOf (run_ticks empty_store calls) sym = lastN 100 (prices_for sym calls) ∧
    (histOf (run_ticks empty_store calls) sym).length ≤ 100 ∧
    ((prices_for sym calls).length = 150 →
      histOf (run_ticks empty_store calls) sym = (prices_for sym calls).drop 50 ∧
      (histOf (run_ticks empty_store calls) sym).length = 100) := by
  have hrun : histOf (run_ticks empty_store calls) sym = lastN 100 (prices_for sym calls) := by
    rw [run_ticks_hist sym calls empty_store]
    have : histOf empty_store sym = [] := rfl
    rw [this, foldl_lastN_append (prices_for sym calls) [] (by simp [MAX_HISTORY])]
    rfl
  refine ⟨hrun, ?_, ?_⟩
  · rw [hrun]
    exact lastN_length_le 100 _
  · intro h150
    constructor
    · rw [hrun]
      unfold lastN
      rw [h150]
    · rw [hrun]
      unfold lastN
      rw [List.length_drop, h150]

set_option maxRecDepth 10000 in
/-- Witness for C8 at 150 recorded ticks for one symbol: the kept history is
ticks 51 through 150. -/
theorem history_store_bounded_witness :
    ((prices_for "AAPL" ((List.range 150).map fun n => ("AAPL", ((n : ℚ) + 1, (0 : ℤ))))).length
        = 150) ∧
      histOf (run_ticks empty_store
          ((List.range 150).map fun n => ("AAPL", ((n : ℚ) + 1, (0 : ℤ))))) "AAPL" =
        (prices_for "AAPL" ((List.range 150).map fun n => ("AAPL", ((n : ℚ) + 1, (0 : ℤ))))).drop
          50 := by
  have h150 : (prices_for "AAPL"
      ((List.range 150).map fun n => ("AAPL", ((n : ℚ) + 1, (0 : ℤ))))).length = 150 := by
    with_unfolding_all decide
  exact ⟨h150, ((history_store_bounded
    ((List.range 150).map fun n => ("AAPL", ((n : ℚ) + 1, (0 : ℤ)))) "AAPL").2.2 h150).1⟩

lemma run_ticks_unseen (sym : String) :
    ∀ (calls : List (String × ℚ × ℤ)) (st : Store),
      sym ∉ calls.map (fun c => c.1) →
      st.market_cache sym = none → st.price_history sym = none →
      (run_ticks st calls).market_cache sym = none ∧
        (run_ticks st calls).price_history sym = none := by
  intro calls
  induction calls with
  | nil => exact fun st _ h1 h2 => ⟨h1, h2⟩
  | cons c rest ih =>
    intro st hmem h1 h2
    have hne : c.1 ≠ sym := by
      intro h
      exact hmem (by rw [List.map_cons, h]; exact List.mem_cons_self _ _)
    have hrest : sym ∉ rest.map (fun c => c.1) := by
      intro h
      exact hmem (by rw [List.map_cons]; exact List.mem_cons_of_mem _ h)
    refine ih (update_market_snapshot st c.1 c.2.1 c.2.2) hrest ?_ ?_
    · unfold update_market_snapshot
      dsimp only
      rw [if_neg (fun hs => hne hs.symm)]
      exact h1
    · unfold update_market_snapshot
      dsimp only
      rw [if_neg (fun hs => hne hs.symm)]
      exact h2

/-- C9: reading a symbol never recorded by any tick does not fail: the
snapshot is the absent placeholder (no price, no timestamp) and the
observation sequence is empty. -/
theorem read_unknown_symbol (calls : List (String × ℚ × ℤ)) (sym : String)
    (h : sym ∉ calls.map fun c => c.1) :
    get_cached_snapshot (run_ticks empty_store calls) sym = (none, []) := by
  obtain ⟨h1, h2⟩ := run_ticks_unseen sym calls empty_store h rfl rfl
  unfold get_cached_snapshot
  rw [h1, h2]
  rfl

/-- Witness for C9: after a tick for AAPL, reading TSLA yields the default
empty state. -/
theorem read_unknown_symbol_witness :
    ("TSLA" ∉ ([("AAPL", ((180 : ℚ), (0 : ℤ)))].map fun c => c.1)) ∧
      get_cached_snapshot (run_ticks empty_store [("AAPL", ((180 : ℚ), (0 : ℤ)))]) "TSLA" =
        (none, []) :=
  ⟨by decide, read_unknown_symbol [("AAPL", ((180 : ℚ), (0 : ℤ)))] "TSLA" (by decide)⟩
